import Mathlib

/-!
# Verification of the JSGFTools grammar/generator library

Shallow embedding of the JSGFTools repository (modern `jsgf` package and the
legacy `JSGFParser` / `DeterministicGenerator` / `ProbabilisticGenerator`
modules) together with proofs about the claims of its specification.

Conventions of the embedding:
* Python strings are Lean `String`; Python floats used as alternative weights
  and random draws are modelled as exact rationals `ℚ` (the claims under
  study are about ordering and tie-breaking, not rounding).
* The per-generator recursion counters (a `defaultdict(int)`) are modelled as
  a total function `String → Nat`.
* Unbounded recursion through grammar rules is made total with an explicit
  fuel parameter; exhausted fuel surfaces as a distinguished generation
  error that never occurs for sufficiently large fuel.
* Python exceptions become explicit error values that carry the mutable
  state at the moment the exception escapes (mirroring `try/finally`).
-/

namespace JSGFTools

/-! ## Python string helpers: `str.strip` -/

/-- The whitespace characters of Python `str.strip()`. -/
def pyIsSpace (c : Char) : Bool :=
  c = ' ' || c = '\t' || c = '\n' || c = '\r' || c = '\x0b' || c = '\x0c'

/-- Remove the trailing characters satisfying `p` from a list. -/
def stripEndBy (p : Char → Bool) : List Char → List Char
  | [] => []
  | c :: cs =>
    match stripEndBy p cs with
    | [] => if p c then [] else [c]
    | c2 :: cs2 => c :: c2 :: cs2

/-- Python `s.strip(chars)` for a character class `p`: drop the leading and
trailing characters satisfying `p`. -/
def pyStripBy (p : Char → Bool) (s : String) : String :=
  ⟨stripEndBy p (s.data.dropWhile p)⟩

/-- Python `s.strip()` (default whitespace stripping). -/
def pyStrip (s : String) : String := pyStripBy pyIsSpace s

/-- Python `name.strip('<>')`, used by `Grammar.get_rule`. -/
def stripAngles (s : String) : String := pyStripBy (fun c => c = '<' || c = '>') s

/-- A string neither starts nor ends with whitespace. -/
def noEdgeSpace (s : String) : Bool :=
  (match s.data.head? with
   | none => true
   | some c => !pyIsSpace c) &&
  (match s.data.getLast? with
   | none => true
   | some c => !pyIsSpace c)

/-! ## The modern AST (`jsgf/ast_nodes.py`) -/

/-- AST node for modern JSGF expressions (`jsgf.ast_nodes`).  `alt` stores
its choices together with their weights, an unweighted choice having been
stored with weight `1.0` by the `Alternative` constructor. -/
inductive JNode where
  | terminal (value : String)
  | nonTerminal (name : String)
  | seq (elements : List JNode)
  | alt (choices : List (JNode × ℚ))
  | opt (element : JNode)
  | group (element : JNode)
  deriving Repr

/-- A grammar rule (`jsgf.ast_nodes.Rule`). -/
structure JRule where
  name : String
  expansion : JNode
  isPublic : Bool
  deriving Repr

/-- The modern grammar (`jsgf.grammar.Grammar`): an insertion-ordered mapping
from rule name to rule, plus the ordered list of public rules. -/
structure JGrammar where
  rules : List (String × JRule)
  publicRules : List JRule
  deriving Repr

/-- Model of `Grammar.get_rule`: normalize the name by stripping angle brackets, then
look the bracketed form up in the rule mapping. -/
def getRule (g : JGrammar) (name : String) : Option JRule :=
  g.rules.lookup ("<" ++ stripAngles name ++ ">")

/-- Model of `Grammar.has_rule`. -/
def hasRule (g : JGrammar) (name : String) : Bool :=
  (getRule g name).isSome

/-! ## Generators (`jsgf/generators.py`) -/

/-- Model of `GeneratorConfig` (only the field the embedded code paths read). -/
structure GenConfig where
  maxRecursionDepth : Nat
  deriving Repr

/-- Per-rule recursion counters: `BaseGenerator._recursion_tracker`
(`defaultdict(int)`), modelled as a total function. -/
def Tracker : Type := String → Nat

/-- Point update of a tracker. -/
def trackerUpd (t : Tracker) (k : String) (v : Nat) : Tracker :=
  fun x => if x = k then v else t x

/-- Model of `_recursion_tracker.clear()` / a freshly constructed tracker. -/
def emptyTracker : Tracker := fun _ => 0

/-- Errors raised during generation (`jsgf.exceptions`):
`GenerationError` and its subclass `RecursionError`.  `outOfFuel` is an
artifact of the fuel-based embedding and never occurs with enough fuel. -/
inductive GenErr where
  | generation (msg : String)
  | recursion (rule : String)
  | outOfFuel
  deriving Repr, DecidableEq

/-- Model of `itertools.product` over a list of lists, in Python iteration order
(rightmost factor varies fastest). -/
def listProd : List (List String) → List (List String)
  | [] => [[]]
  | l :: ls => l.flatMap (fun x => (listProd ls).map (fun ys => x :: ys))

/-- Model of `DeterministicGenerator._combine_sequences`: cross product of the
per-element possibility lists, each combination joined with single spaces
after dropping empty contributions. -/
def combineSequences (elementStrings : List (List String)) : List String :=
  if elementStrings.isEmpty then [""]
  else (listProd elementStrings).map
    (fun combo => String.intercalate " " (combo.filter (fun s => s ≠ "")))

/-- The element loop of `DeterministicGenerator._process_sequence`,
threading the tracker left to right and propagating the first error. -/
def detStepList (f : JNode → Tracker → Tracker × Except GenErr (List String)) :
    List JNode → Tracker → Tracker × Except GenErr (List (List String))
  | [], t => (t, .ok [])
  | e :: es, t =>
    match f e t with
    | (t2, .error err) => (t2, .error err)
    | (t2, .ok ss) =>
      match detStepList f es t2 with
      | (t3, .error err) => (t3, .error err)
      | (t3, .ok rest) => (t3, .ok (ss :: rest))

/-- The choice loop of `DeterministicGenerator._process_alternative`: the
weight of each choice is bound and ignored, the per-choice lists are
concatenated in order. -/
def detStepChoices (f : JNode → Tracker → Tracker × Except GenErr (List String)) :
    List (JNode × ℚ) → Tracker → Tracker × Except GenErr (List String)
  | [], t => (t, .ok [])
  | (c, _) :: cs, t =>
    match f c t with
    | (t2, .error err) => (t2, .error err)
    | (t2, .ok ss) =>
      match detStepChoices f cs t2 with
      | (t3, .error err) => (t3, .error err)
      | (t3, .ok rest) => (t3, .ok (ss ++ rest))

/-- Model of `DeterministicGenerator._process_node` and the `_process_*` methods it
dispatches to, with the recursion tracker threaded explicitly.  An `error`
result carries the tracker state at the moment the Python exception escapes
(the `finally` block of `_process_nonterminal` decrements on both paths,
except when `_enter_rule` itself raised). -/
def detProcess (g : JGrammar) (cfg : GenConfig) :
    Nat → JNode → Tracker → Tracker × Except GenErr (List String)
  | 0, _, t => (t, .error .outOfFuel)
  | fuel + 1, node, t =>
    match node with
    | .terminal v => (t, .ok [v])
    | .nonTerminal n =>
      match getRule g n with
      | none => (t, .error (.generation ("Undefined rule: " ++ n)))
      | some r =>
        let t1 := trackerUpd t n (t n + 1)
        if cfg.maxRecursionDepth < t1 n then
          (t1, .error (.recursion n))
        else
          match detProcess g cfg fuel r.expansion t1 with
          | (t2, res) => (trackerUpd t2 n (t2 n - 1), res)
    | .seq es =>
      if es.isEmpty then (t, .ok [""])
      else
        match detStepList (detProcess g cfg fuel) es t with
        | (t2, .error e) => (t2, .error e)
        | (t2, .ok ls) => (t2, .ok (combineSequences ls))
    | .alt cs => detStepChoices (detProcess g cfg fuel) cs t
    | .opt e =>
      match detProcess g cfg fuel e t with
      | (t2, .error err) => (t2, .error err)
      | (t2, .ok ss) => (t2, .ok ("" :: ss))
    | .group e => detProcess g cfg fuel e t

/-- Model of `DeterministicGenerator.generate` with an explicit `rule_name`: look up
the rule (raising `GenerationError` if absent), enumerate, and yield every
string stripped.  Faithful to the source, this branch does NOT clear the
instance recursion tracker `t` before processing. -/
def detGenerateNamed (g : JGrammar) (cfg : GenConfig) (fuel : Nat)
    (name : String) (t : Tracker) : Tracker × Except GenErr (List String) :=
  match getRule g name with
  | none => (t, .error (.generation ("Rule \x27" ++ name ++ "\x27 not found")))
  | some r =>
    match detProcess g cfg fuel r.expansion t with
    | (t2, .error e) => (t2, .error e)
    | (t2, .ok ss) => (t2, .ok (ss.map pyStrip))

/-- The public-rules loop of `DeterministicGenerator.generate` (no
`rule_name`): for each public rule the tracker is cleared before
processing; strings yielded before an error remain yielded. -/
def detGeneratePublicGo (g : JGrammar) (cfg : GenConfig) (fuel : Nat) :
    List JRule → Tracker → List String → Tracker × List String × Option GenErr
  | [], t, acc => (t, acc, none)
  | r :: rest, _, acc =>
    match detProcess g cfg fuel r.expansion emptyTracker with
    | (t2, .error e) => (t2, acc, some e)
    | (t2, .ok ss) => detGeneratePublicGo g cfg fuel rest t2 (acc ++ ss.map pyStrip)

/-- Model of `DeterministicGenerator.generate` with `rule_name = None`. -/
def detGeneratePublic (g : JGrammar) (cfg : GenConfig) (fuel : Nat)
    (t : Tracker) : Tracker × List String × Option GenErr :=
  detGeneratePublicGo g cfg fuel g.publicRules t []

/-! ## Weighted random selection

`ProbabilisticGenerator.py`'s `weightedChoice` builds the cumulative weight
distribution with `accum`, draws `x = random.random() * cumdist[-1]`, and
selects `choices[bisect.bisect(cumdist, x)]`.  `random.choices` (used by
`jsgf/generators.py`) uses the same `accumulate` + `bisect` (bisect_right)
algorithm, with the index clamped to `len - 1`. -/

/-- Model of `bisect.bisect` (= `bisect_right`) on a sorted list: the number of
leading elements `≤ x`, i.e. the insertion point to the right of entries
equal to `x`. -/
def bisectRight (x : ℚ) : List ℚ → Nat
  | [] => 0
  | a :: l => if x < a then 0 else bisectRight x l + 1

/-- The `accum` helper of `weightedChoice`: running cumulative sums. -/
def accumFrom (acc : ℚ) : List ℚ → List ℚ
  | [] => []
  | w :: ws => (acc + w) :: accumFrom (acc + w) ws

/-- Cumulative weight distribution of a weight list. -/
def accumWeights (ws : List ℚ) : List ℚ := accumFrom 0 ws

/-- The index selected by `weightedChoice` for a concrete draw `x`
(`bisect.bisect(cumdist, x)`). -/
def weightedChoiceIdx (ws : List ℚ) (x : ℚ) : Nat :=
  bisectRight x (accumWeights ws)

/-- Model of `weightedChoice(listOfTuples)` evaluated at draw value
`x = random.random() * cumdist[-1]`: `choices[bisect.bisect(cumdist, x)]`
(`none` models the `IndexError` of an out-of-range index). -/
def weightedChoiceAt (pairs : List (JNode × ℚ)) (x : ℚ) : Option JNode :=
  (pairs.get? (weightedChoiceIdx (pairs.map Prod.snd) x)).map Prod.fst

/-- Index of the first entry `≥ x` in a list (length of the list when no
entry qualifies). -/
def firstGEIdx (x : ℚ) : List ℚ → Nat
  | [] => 0
  | a :: l => if x ≤ a then 0 else firstGEIdx x l + 1

/-- Modelled from the spec: the selection rule as the specification words
it — "select the first choice whose cumulative weight equals-or-exceeds the
draw".  Kept separate from `weightedChoiceIdx` (the code's rule) so the two
can be compared. -/
def specFirstGEIdx (ws : List ℚ) (x : ℚ) : Nat :=
  firstGEIdx x (accumWeights ws)

/-! ## Probabilistic generator (`jsgf/generators.py`) -/

/-- Pop the next uniform draw from the modelled random stream.  An
exhausted stream repeats `0`; theorems about concrete runs always supply
enough draws. -/
def popDraw : List ℚ → ℚ × List ℚ
  | [] => (0, [])
  | r :: rs => (r, rs)

/-- The element loop of `ProbabilisticGenerator._process_sequence`:
collect the non-empty derived pieces in order. -/
def probStepSeq
    (f : JNode → Tracker → List ℚ → (Tracker × List ℚ) × Except GenErr String) :
    List JNode → Tracker → List ℚ → (Tracker × List ℚ) × Except GenErr (List String)
  | [], t, rs => ((t, rs), .ok [])
  | e :: es, t, rs =>
    match f e t rs with
    | (st, .error err) => (st, .error err)
    | ((t2, rs2), .ok s) =>
      match probStepSeq f es t2 rs2 with
      | (st, .error err) => (st, .error err)
      | (st, .ok rest) => (st, .ok (if s ≠ "" then s :: rest else rest))

/-- Model of `ProbabilisticGenerator._process_node` with the recursion tracker and
the random stream threaded explicitly. -/
def probProcess (g : JGrammar) (cfg : GenConfig) :
    Nat → JNode → Tracker → List ℚ → (Tracker × List ℚ) × Except GenErr String
  | 0, _, t, rs => ((t, rs), .error .outOfFuel)
  | fuel + 1, node, t, rs =>
    match node with
    | .terminal v => ((t, rs), .ok v)
    | .nonTerminal n =>
      match getRule g n with
      | none => ((t, rs), .error (.generation ("Undefined rule: " ++ n)))
      | some r =>
        let t1 := trackerUpd t n (t n + 1)
        if cfg.maxRecursionDepth < t1 n then
          ((t1, rs), .error (.recursion n))
        else
          match probProcess g cfg fuel r.expansion t1 rs with
          | ((t2, rs2), res) => ((trackerUpd t2 n (t2 n - 1), rs2), res)
    | .seq es =>
      if es.isEmpty then ((t, rs), .ok "")
      else
        match probStepSeq (probProcess g cfg fuel) es t rs with
        | (st, .error e) => (st, .error e)
        | (st, .ok parts) => (st, .ok (String.intercalate " " parts))
    | .alt cs =>
      if cs.isEmpty then ((t, rs), .ok "")
      else
        let cum := accumWeights (cs.map Prod.snd)
        let total := cum.getLast?.getD 0
        let (r, rs2) := popDraw rs
        let idx := min (bisectRight (r * total) cum) (cs.length - 1)
        match cs.get? idx with
        | none => ((t, rs2), .error (.generation "index out of range"))
        | some (c, _) => probProcess g cfg fuel c t rs2
    | .opt e =>
      let (r, rs2) := popDraw rs
      if r < 1/2 then probProcess g cfg fuel e t rs2
      else ((t, rs2), .ok "")
    | .group e => probProcess g cfg fuel e t rs

/-- One iteration of `ProbabilisticGenerator.generate` with an explicit
`rule_name`.  The loop body clears the recursion tracker first, so the
instance tracker `t` is discarded. -/
def probGenerateNamed (g : JGrammar) (cfg : GenConfig) (fuel : Nat)
    (name : String) (_t : Tracker) (rs : List ℚ) :
    (Tracker × List ℚ) × Except GenErr String :=
  match getRule g name with
  | none => ((emptyTracker, rs), .error (.generation ("Rule \x27" ++ name ++ "\x27 not found")))
  | some r =>
    match probProcess g cfg fuel r.expansion emptyTracker rs with
    | (st, .error e) => (st, .error e)
    | (st, .ok s) => (st, .ok (pyStrip s))

/-- One iteration of `ProbabilisticGenerator.generate` with
`rule_name = None`: single public rule, or a virtual unweighted
`Alternative` over all public rule expansions. -/
def probGeneratePublic (g : JGrammar) (cfg : GenConfig) (fuel : Nat)
    (_t : Tracker) (rs : List ℚ) :
    (Tracker × List ℚ) × Except GenErr String :=
  if g.publicRules.isEmpty then
    ((emptyTracker, rs), .error (.generation "No public rules available"))
  else if 1 < g.publicRules.length then
    match probProcess g cfg fuel
        (.alt (g.publicRules.map (fun r => (r.expansion, 1)))) emptyTracker rs with
    | (st, .error e) => (st, .error e)
    | (st, .ok s) => (st, .ok (pyStrip s))
  else
    match g.publicRules with
    | [] => ((emptyTracker, rs), .error (.generation "No public rules available"))
    | r :: _ =>
      match probProcess g cfg fuel r.expansion emptyTracker rs with
      | (st, .error e) => (st, .error e)
      | (st, .ok s) => (st, .ok (pyStrip s))

/-! ## Grammar operations (`jsgf/grammar.py`) -/

/-- Python exceptions that `Grammar.add_rule` could raise.  The code raises
`ValueError`; `duplicateRuleError` is modelled from the spec (which names a
`DuplicateRuleError` that does not exist in `jsgf/exceptions.py`) so the two
behaviours can be compared. -/
inductive PyExc where
  | valueError (msg : String)
  | duplicateRuleError (msg : String)
  deriving Repr, DecidableEq

/-- Recognizer for the spec's `DuplicateRuleError`. -/
def PyExc.isDuplicateRuleError : PyExc → Bool
  | .duplicateRuleError _ => true
  | _ => false

/-- Model of `Grammar.add_rule`: raise `ValueError` (leaving the grammar unchanged)
when the exact rule name is already a key of the rule mapping; otherwise
insert, appending to `public_rules` when the rule is public. -/
def addRule (g : JGrammar) (r : JRule) : Option PyExc × JGrammar :=
  if (g.rules.lookup r.name).isSome then
    (some (.valueError ("Rule \x27" ++ r.name ++ "\x27 already exists")), g)
  else
    (none,
      { rules := g.rules ++ [(r.name, r)],
        publicRules := if r.isPublic then g.publicRules ++ [r] else g.publicRules })

mutual

/-- Model of `Grammar._get_direct_dependencies`: every `NonTerminal` name occurring
in an expansion, in traversal order (duplicates kept). -/
def ntNames : JNode → List String
  | .terminal _ => []
  | .nonTerminal n => [n]
  | .seq es => ntNamesList es
  | .alt cs => ntNamesChoices cs
  | .opt e => ntNames e
  | .group e => ntNames e

def ntNamesList : List JNode → List String
  | [] => []
  | e :: es => ntNames e ++ ntNamesList es

def ntNamesChoices : List (JNode × ℚ) → List String
  | [] => []
  | (c, _) :: cs => ntNames c ++ ntNamesChoices cs

end

mutual

/-- Model of `Grammar._find_undefined_references`: the visitor that appends every
`NonTerminal` name without a matching rule, in traversal order. -/
def findUndefinedRefs (g : JGrammar) : JNode → List String
  | .terminal _ => []
  | .nonTerminal n => if hasRule g n then [] else [n]
  | .seq es => findUndefinedRefsList g es
  | .alt cs => findUndefinedRefsChoices g cs
  | .opt e => findUndefinedRefs g e
  | .group e => findUndefinedRefs g e

def findUndefinedRefsList (g : JGrammar) : List JNode → List String
  | [] => []
  | e :: es => findUndefinedRefs g e ++ findUndefinedRefsList g es

def findUndefinedRefsChoices (g : JGrammar) : List (JNode × ℚ) → List String
  | [] => []
  | (c, _) :: cs => findUndefinedRefs g c ++ findUndefinedRefsChoices g cs

end

/-- The `errors` list built by `Grammar.validate`, in construction order:
one entry per rule with undefined references, then the no-public-rule
failure. -/
def validateErrors (g : JGrammar) : List String :=
  (g.rules.flatMap (fun p =>
    let undef := findUndefinedRefs g p.2.expansion
    if undef.isEmpty then []
    else ["Rule \x27" ++ p.2.name ++ "\x27 references undefined non-terminals: " ++
          String.intercalate ", " undef])) ++
  (if g.publicRules.isEmpty then ["Grammar must have at least one public rule"] else [])

/-- Model of `Grammar.validate`: `none` when no check failed, otherwise the single
`ValidationError` message aggregating every collected failure. -/
def validate (g : JGrammar) : Option String :=
  if (validateErrors g).isEmpty then none
  else some ("Grammar validation failed:\n" ++ String.intercalate "\n" (validateErrors g))

/-- The mutable state of `Grammar.detect_cycles`'s depth-first search. -/
structure CycState where
  visited : List String
  recStack : List String
  cycles : List (List String)
  deriving Repr

/-- The recursive `dfs` of `Grammar.detect_cycles`: a node already on the
recursion stack closes a cycle recorded as the path slice from its first
occurrence through the repeat; otherwise unvisited nodes are explored and
the node is removed from the recursion stack afterwards. -/
def dfsCycles (graph : List (String × List String)) :
    Nat → String → List String → CycState → CycState
  | 0, _, _, st => st
  | fuel + 1, node, path, st =>
    if node ∈ st.recStack then
      { st with cycles := st.cycles ++ [path.drop (path.indexOf node) ++ [node]] }
    else if node ∈ st.visited then st
    else
      let path2 := path ++ [node]
      let st1 := { st with visited := st.visited ++ [node], recStack := st.recStack ++ [node] }
      let st2 := ((graph.lookup node).getD []).foldl
        (fun s nb => dfsCycles graph fuel nb path2 s) st1
      { st2 with recStack := st2.recStack.erase node }

/-- Model of `Grammar.detect_cycles`: dependency graph over all rules, then DFS from
every not-yet-visited rule, in rule insertion order. -/
def detectCycles (g : JGrammar) : List (List String) :=
  let graph := g.rules.map (fun p => (p.1, ntNames p.2.expansion))
  (g.rules.foldl
    (fun st p => if p.1 ∈ st.visited then st
                 else dfsCycles graph (g.rules.length + 1) p.1 [] st)
    ⟨[], [], []⟩).cycles

/-- Model of `Grammar.is_recursive`: any cycle at all, or a cycle containing the
normalized (re-bracketed) rule name. -/
def isRecursive (g : JGrammar) (ruleName : Option String) : Bool :=
  let cycles := detectCycles g
  match ruleName with
  | none => decide (0 < cycles.length)
  | some rn => cycles.any (fun c => ("<" ++ stripAngles rn ++ ">") ∈ c)

/-! ## Legacy comment stripping (`JSGFParser.py`, used behind
`Grammar.from_string` via `LegacyAdapter`) -/

/-- Does `l` start with `pat`? -/
def startsWithSub : List Char → List Char → Bool
  | _, [] => true
  | [], _ :: _ => false
  | a :: l, b :: pat => a = b && startsWithSub l pat

/-- Index of the first occurrence of `pat` in `hay` (Python
`hay.index(pat)` would raise where this returns `none`). -/
def findSub (hay pat : List Char) : Option Nat :=
  if startsWithSub hay pat then some 0
  else
    match hay with
    | [] => none
    | _ :: t => (findSub t pat).map (· + 1)

/-- Model of `JSGFParser.nocomment`: truncate at the first `//`; otherwise blank any
line containing `*`; otherwise return the line unchanged. -/
def nocomment (line : String) : String :=
  match findSub line.data ['/', '/'] with
  | some i => ⟨line.data.take i⟩
  | none => if line.data.contains '*' then "" else line

/-! ## Legacy parser (`JSGFParser.py`)

The pyparsing grammar is modelled at the lexeme level: a source text is an
alternating sequence of lexemes and whitespace runs, and pyparsing's
terminals each skip leading whitespace (the default whitespace characters
include the newline), so a rule matcher sees only the lexeme sequence.  The
lexeme alphabet below is exactly the set of pyparsing terminals of
`JSGFParser.py`; physical lines are `List Lexeme` values and newlines are
the boundaries between lines.  Parsers return the spliced pyparsing token
list plus the number of lexemes consumed. -/

/-- One pyparsing terminal of the legacy grammar. -/
inductive Lexeme where
  | publicKw
  | nt (name : String)
  | token (s : String)
  | weight (w : ℚ)
  | eq
  | semi
  | bar
  | lparen
  | rparen
  | lbrack
  | rbrack
  deriving Repr, DecidableEq

/-- A legacy right-hand-side value (`JSGFGrammar.py` plus the raw Python
values the parse actions build): strings, `NonTerminal`, `Optional`,
Python lists (sequences), `Disjunction`, and weighted `(expr, weight)`
tuples. -/
inductive LRHS where
  | str (s : String)
  | nt (name : String)
  | opt (o : LRHS)
  | seqL (items : List LRHS)
  | disj (ds : List LRHS)
  | wpair (r : LRHS) (w : ℚ)
  deriving Repr

/-- Model of `foundPair`, shared by `disj` and `weightAlternatives`: accumulate the
first alternative (a multi-element sequence becomes a single list-valued
disjunct) with the already-built rest. -/
def foundPair (s1 s2 : List LRHS) : LRHS :=
  let first := if 1 < s1.length then [LRHS.seqL s1] else s1
  LRHS.disj
    (match s2 with
     | [LRHS.disj inner] => first ++ inner
     | [x] => first ++ [x]
     | xs => first ++ [LRHS.seqL xs])

/-- Model of `foundOptionalGroup`: wrap the group in `Optional`, a multi-element
content list staying a list.  Empty content would be a Python `IndexError`,
modelled as `none`. -/
def foundOptionalGroup : List LRHS → Option (List LRHS)
  | [] => none
  | [x] => some [LRHS.opt x]
  | xs => some [LRHS.opt (.seqL xs)]

/-- Model of `foundWeightedExpression`: pair the sequence (unwrapped when a single
element) with its weight. -/
def foundWeightedExpr (items : List LRHS) (w : ℚ) : LRHS :=
  match items with
  | [x] => .wpair x w
  | xs => .wpair (.seqL xs) w

/-- Model of `Expression = MatchFirst([nonterminal, token])`. -/
def parseExpressionLex : List Lexeme → Option (List LRHS × Nat)
  | .nt name :: _ => some ([LRHS.nt name], 1)
  | .token s :: _ => some ([LRHS.str s], 1)
  | _ => none

/-- The productions of the legacy pyparsing grammar, as cases of one
recursive engine (`parseLex`). -/
inductive PSort where
  | topLevel
  | disjS
  | weightAlts
  | weightedExpr
  | sequenceS
  | seqRest
  | seqElem
  | grouping
  | optGrouping
  deriving Repr, DecidableEq

/-- The legacy pyparsing grammar of `JSGFParser.py`, one case per
production; every result is the spliced pyparsing token list together with
the number of lexemes consumed.  `foundSeq` is the identity on the spliced
token list (a single element is unwrapped and re-spliced to the same
one-element list), so it does not appear explicitly. -/
def parseLex : Nat → PSort → List Lexeme → Option (List LRHS × Nat)
  | 0, .seqRest, _ => some ([], 0)
  | 0, _, _ => none
  | fuel + 1, sort, l =>
    match sort with
    -- topLevel = MatchFirst([disj, weightAlternatives])
    | .topLevel =>
      match parseLex fuel .disjS l with
      | some r => some r
      | none => parseLex fuel .weightAlts l
    -- disj = MatchFirst([Group(Sequence) + Group('|' + disj) |> foundPair,
    --                    Group(Sequence) |> foundSeq])
    | .disjS =>
      match parseLex fuel .sequenceS l with
      | none => none
      | some (s1, n1) =>
        match l.drop n1 with
        | .bar :: _ =>
          match parseLex fuel .disjS (l.drop (n1 + 1)) with
          | some (ts2, n2) => some ([foundPair s1 ts2], n1 + 1 + n2)
          | none => some (s1, n1)
        | _ => some (s1, n1)
    -- weightAlternatives, the all-weighted analogue of disj
    | .weightAlts =>
      match parseLex fuel .weightedExpr l with
      | none => none
      | some (w1, n1) =>
        match l.drop n1 with
        | .bar :: _ =>
          match parseLex fuel .weightAlts (l.drop (n1 + 1)) with
          | some (ts2, n2) => some ([foundPair w1 ts2], n1 + 1 + n2)
          | none => some (w1, n1)
        | _ => some (w1, n1)
    -- weightedExpression = weight + Group(Sequence) |> foundWeightedExpression
    | .weightedExpr =>
      match l with
      | .weight w :: l2 =>
        match parseLex fuel .sequenceS l2 with
        | none => none
        | some (items, n) => some ([foundWeightedExpr items w], n + 1)
      | _ => none
    -- Sequence = Group(OneOrMore(MatchFirst([Grouping, OptionalGrouping,
    --                                        Expression]))) |> foundSeq
    | .sequenceS =>
      match parseLex fuel .seqElem l with
      | none => none
      | some (ts, n) =>
        match parseLex fuel .seqRest (l.drop n) with
        | some (ts2, n2) => some (ts ++ ts2, n + n2)
        | none => none
    -- the greedy repetition part of OneOrMore (never fails)
    | .seqRest =>
      match parseLex fuel .seqElem l with
      | none => some ([], 0)
      | some (ts, n) =>
        match parseLex fuel .seqRest (l.drop n) with
        | some (ts2, n2) => some (ts ++ ts2, n + n2)
        | none => none
    -- MatchFirst([Grouping, OptionalGrouping, Expression])
    | .seqElem =>
      match parseLex fuel .grouping l with
      | some r => some r
      | none =>
        match parseLex fuel .optGrouping l with
        | some r => some r
        | none => parseExpressionLex l
    -- Grouping = '(' + topLevel + ')' (no action: tokens spliced through)
    | .grouping =>
      match l with
      | .lparen :: l2 =>
        match parseLex fuel .topLevel l2 with
        | none => none
        | some (ts, n) =>
          match l2.drop n with
          | .rparen :: _ => some (ts, n + 2)
          | _ => none
      | _ => none
    -- OptionalGrouping = '[' + Group(topLevel) + ']' |> foundOptionalGroup
    | .optGrouping =>
      match l with
      | .lbrack :: l2 =>
        match parseLex fuel .topLevel l2 with
        | none => none
        | some (ts, n) =>
          match l2.drop n with
          | .rbrack :: _ =>
            match foundOptionalGroup ts with
            | none => none
            | some ts2 => some (ts2, n + 2)
          | _ => none
      | _ => none

/-- Model of `topLevel = MatchFirst([disj, weightAlternatives])`. -/
def parseTopLevel (fuel : Nat) (l : List Lexeme) : Option (List LRHS × Nat) :=
  parseLex fuel .topLevel l

/-- A matched legacy rule definition: visibility, left-hand-side
nonterminal name (bracketed), and `list(tokens.ruleDef)`. -/
structure MatchedRule where
  isPublic : Bool
  lhs : String
  rhs : List LRHS
  deriving Repr

/-- The part of `StartSymbol` after the optional `public` keyword:
`nonterminal + '=' + Group(topLevel) + ';' + stringEnd`. -/
def matchRuleCore (fuel : Nat) (isPub : Bool) (l1 : List Lexeme) : Option MatchedRule :=
  match l1 with
  | .nt name :: .eq :: l2 =>
    match parseTopLevel fuel l2 with
    | none => none
    | some (ts, n) =>
      match l2.drop n with
      | [.semi] => some ⟨isPub, name, ts⟩
      | _ => none
  | _ => none

/-- Model of `StartSymbol = Optional('public') + nonterminal + '=' +
Group(topLevel) + ';' + stringEnd`, evaluated against a whole buffer: a
match must consume every lexeme. -/
def matchStartSymbol (l : List Lexeme) : Option MatchedRule :=
  match l with
  | .publicKw :: rest => matchRuleCore (6 * l.length + 12) true rest
  | _ => matchRuleCore (6 * l.length + 12) false l

/-- Model of `StartSymbol.scanString(buffer)`'s first match: the earliest start
position from which the rule matcher succeeds (through the end of the
buffer), together with the end position of the match. -/
def scanFirst : List Lexeme → Option (MatchedRule × Nat)
  | [] => none
  | l@(_ :: tail) =>
    match matchStartSymbol l with
    | some res => some (res, l.length)
    | none => (scanFirst tail).map (fun p => (p.1, p.2 + 1))

/-- The legacy `JSGFGrammar.Grammar`. -/
structure LegacyGrammar where
  rules : List MatchedRule
  publicRules : List MatchedRule
  deriving Repr

/-- The rule-emission step of `getGrammarObject`: `addPublicRule` when the
`public` keyword matched, then `addRule`. -/
def legacyAdd (g : LegacyGrammar) (m : MatchedRule) : LegacyGrammar :=
  { rules := g.rules ++ [m],
    publicRules := if m.isPublic then g.publicRules ++ [m] else g.publicRules }

/-- The inner `while match:` loop of `getGrammarObject`: repeatedly take
the first scan match of the buffer, emit it, and advance past its end. -/
def drainBuffer : Nat → LegacyGrammar → List Lexeme → LegacyGrammar × List Lexeme
  | 0, g, buf => (g, buf)
  | fuel + 1, g, buf =>
    match scanFirst buf with
    | none => (g, buf)
    | some (m, e) => drainBuffer fuel (legacyAdd g m) (buf.drop e)

/-- One iteration of `getGrammarObject`'s `for line in lines:` loop:
append the line to the buffer, then drain. -/
def feedLine (st : LegacyGrammar × List Lexeme) (line : List Lexeme) :
    LegacyGrammar × List Lexeme :=
  let buf := st.2 ++ line
  drainBuffer (buf.length + 1) st.1 buf

/-- Model of `getGrammarObject`: fold the line-buffered scan over all (comment
stripped) physical lines of the source. -/
def getGrammarObject (lines : List (List Lexeme)) : LegacyGrammar :=
  (lines.foldl feedLine (⟨[], []⟩, [])).1

/-- A well-formed rule definition at the lexeme level: the matcher accepts
it, and its only `;` lexeme is the final one. -/
def WFRuleLexemes (r : List Lexeme) : Prop :=
  (matchStartSymbol r).isSome ∧ ∃ body, r = body ++ [.semi] ∧ Lexeme.semi ∉ body

/-! ## Legacy deterministic generator (`DeterministicGenerator.py`) -/

/-- Errors escaping the legacy generator: `ValueError` from
`Grammar.getRHS`, the `None` returned by `processRHS` on an unhandled
value, and the fuel artifact of the embedding. -/
inductive LegacyErr where
  | valueError (msg : String)
  | noneType
  | outOfFuel
  deriving Repr, DecidableEq

/-- Model of `Grammar.getRHS`: the right-hand side of the first rule whose
left-hand-side name matches. -/
def legacyGetRHS (g : LegacyGrammar) (n : String) : Option (List LRHS) :=
  (g.rules.find? (fun r => r.lhs = n)).map (fun r => r.rhs)

/-- Model of `DeterministicGenerator.combineSets`: iterated binary cross product,
each pair concatenated with a space after stripping both sides, the result
stripped again. -/
def combineSets (sets : List (List String)) : List String :=
  sets.foldl
    (fun total s =>
      total.flatMap (fun a => s.map (fun b => pyStrip (pyStrip a ++ " " ++ pyStrip b))))
    [""]

/-- Model of `processDisjunction`'s weight stripping: when the first disjunct is a
tuple, every disjunct is replaced by its first component.  (The legacy
parser only ever produces all-weighted or all-unweighted disjunct lists,
so the non-tuple arm of the map is the identity here.) -/
def legacyStripWeights (ds : List LRHS) : List LRHS :=
  match ds with
  | .wpair _ _ :: _ =>
    ds.map (fun d => match d with | .wpair r _ => r | other => other)
  | _ => ds

/-- The component loop of the legacy `processSequence`. -/
def legacyStepSeq (f : LRHS → Except LegacyErr (List String)) :
    List LRHS → Except LegacyErr (List (List String))
  | [] => .ok []
  | r :: rest =>
    match f r with
    | .error e => .error e
    | .ok ss =>
      match legacyStepSeq f rest with
      | .error e => .error e
      | .ok sets => .ok (ss :: sets)

/-- The extension loop of the legacy `processDisjunction`. -/
def legacyStepDisjuncts (f : LRHS → Except LegacyErr (List String)) :
    List LRHS → Except LegacyErr (List String)
  | [] => .ok []
  | d :: ds =>
    match f d with
    | .error e => .error e
    | .ok ss =>
      match legacyStepDisjuncts f ds with
      | .error e => .error e
      | .ok rest => .ok (ss ++ rest)

/-- Model of `DeterministicGenerator.processRHS`, dispatching on the runtime type of
the value. -/
def legacyProcessRHS (g : LegacyGrammar) : Nat → LRHS → Except LegacyErr (List String)
  | 0, _ => .error .outOfFuel
  | fuel + 1, rhs =>
    match rhs with
    | .str s => .ok [s]
    | .seqL items =>
      match legacyStepSeq (legacyProcessRHS g fuel) items with
      | .error e => .error e
      | .ok sets => .ok (combineSets sets)
    | .disj ds =>
      legacyStepDisjuncts (legacyProcessRHS g fuel) (legacyStripWeights ds)
    | .opt o =>
      match legacyProcessRHS g fuel o with
      | .error e => .error e
      | .ok ss => .ok ("" :: ss)
    | .nt n =>
      match legacyGetRHS g n with
      | none => .error (.valueError ("Rule not defined for " ++ n))
      | some rhs2 =>
        match legacyStepSeq (legacyProcessRHS g fuel) rhs2 with
        | .error e => .error e
        | .ok sets => .ok (combineSets sets)
    | .wpair _ _ => .error .noneType

/-- The possibility list of a successful deterministic result, `[]` for an
error (used to state enumeration theorems). -/
def okOrNil (r : Tracker × Except GenErr (List String)) : List String :=
  match r.2 with
  | .ok l => l
  | .error _ => []

/-- The possibility list of a successful legacy result, `[]` for an
error. -/
def exceptOkOr (r : Except LegacyErr (List String)) : List String :=
  match r with
  | .ok l => l
  | .error _ => []

/-! ## Concrete fixtures used by the claim theorems -/

/-- Model of `Alternative([(Terminal("hello"), w1), (Terminal("hi"), w2)])`. -/
def greetAlt (w1 w2 : ℚ) : JNode :=
  .alt [(.terminal "hello", w1), (.terminal "hi", w2)]

/-- A public rule `<greet>` with the two-choice alternative above. -/
def greetRule (w1 w2 : ℚ) : JRule := ⟨"<greet>", greetAlt w1 w2, true⟩

/-- A grammar holding only `<greet>`. -/
def gGreet (w1 w2 : ℚ) : JGrammar :=
  ⟨[("<greet>", greetRule w1 w2)], [greetRule w1 w2]⟩

/-- Model of `Sequence([Terminal("hello"), Optional(Terminal("world"))])`. -/
def helloWorldSeq : JNode := .seq [.terminal "hello", .opt (.terminal "world")]

/-- A grammar with the single public rule `<start> = hello [world];`. -/
def gHelloWorld : JGrammar :=
  ⟨[("<start>", ⟨"<start>", helloWorldSeq, true⟩)], [⟨"<start>", helloWorldSeq, true⟩]⟩

/-- The directly self-recursive grammar `<S> = <S>;`. -/
def gSelfRec : JGrammar :=
  ⟨[("<S>", ⟨"<S>", .nonTerminal "<S>", true⟩)], [⟨"<S>", .nonTerminal "<S>", true⟩]⟩

/-- The two-rule cyclic grammar `<S> = <A>; <A> = <S>;`. -/
def gCycSA : JGrammar :=
  ⟨[("<S>", ⟨"<S>", .nonTerminal "<A>", true⟩),
    ("<A>", ⟨"<A>", .nonTerminal "<S>", false⟩)],
   [⟨"<S>", .nonTerminal "<A>", true⟩]⟩

/-- A grammar whose only rule references the undefined `<missing>` and
which has no public rule: both validation failures at once. -/
def gBad : JGrammar :=
  ⟨[("<start>", ⟨"<start>", .nonTerminal "<missing>", false⟩)], []⟩

/-! # Theorems

## Helper lemmas -/

theorem head?_stripEndBy (p : Char → Bool) (l : List Char) :
    (stripEndBy p l).head? = none ∨ (stripEndBy p l).head? = l.head? := by
  cases l with
  | nil => left; rfl
  | cons c cs =>
    simp only [stripEndBy]
    cases h : stripEndBy p cs with
    | nil =>
      by_cases hp : p c
      · left; simp [hp]
      · right; simp [hp]
    | cons c2 cs2 => right; rfl

theorem getLast?_stripEndBy (p : Char → Bool) (l : List Char) :
    ∀ c, (stripEndBy p l).getLast? = some c → p c = false := by
  induction l with
  | nil => intro c h; simp [stripEndBy] at h
  | cons x xs ih =>
    intro c h
    simp only [stripEndBy] at h
    cases hx : stripEndBy p xs with
    | nil =>
      rw [hx] at h
      by_cases hp : p x
      · simp [hp] at h
      · simp [hp] at h
        simp [← h, hp]
    | cons c2 cs2 =>
      rw [hx] at h
      rw [List.getLast?_cons_cons] at h
      rw [← hx] at h
      exact ih c h

theorem head?_dropWhile (p : Char → Bool) (l : List Char) :
    ∀ c, (l.dropWhile p).head? = some c → p c = false := by
  induction l with
  | nil => intro c h; simp at h
  | cons x xs ih =>
    intro c h
    by_cases hp : p x
    · rw [List.dropWhile_cons_of_pos hp] at h
      exact ih c h
    · rw [List.dropWhile_cons_of_neg hp] at h
      simp at h
      simp [← h]
      simpa using hp

/-- The result of Python `strip()` has no whitespace at either edge. -/
theorem noEdgeSpace_pyStrip (s : String) : noEdgeSpace (pyStrip s) = true := by
  unfold noEdgeSpace pyStrip pyStripBy
  apply Bool.and_eq_true_iff.mpr
  constructor
  · cases hh : (stripEndBy pyIsSpace (s.data.dropWhile pyIsSpace)).head? with
    | none => rfl
    | some c =>
      rcases head?_stripEndBy pyIsSpace (s.data.dropWhile pyIsSpace) with h | h
      · rw [hh] at h; cases h
      · rw [hh] at h
        have := head?_dropWhile pyIsSpace s.data c h.symm
        simp [this]
  · cases hh : (stripEndBy pyIsSpace (s.data.dropWhile pyIsSpace)).getLast? with
    | none => rfl
    | some c =>
      have := getLast?_stripEndBy pyIsSpace (s.data.dropWhile pyIsSpace) c hh
      simp [this]

theorem trackerUpd_same (t : Tracker) (k : String) (v : Nat) :
    trackerUpd t k v k = v := by simp [trackerUpd]

theorem trackerUpd_other (t : Tracker) (k x : String) (v : Nat) (h : x ≠ k) :
    trackerUpd t k v x = t x := by simp [trackerUpd, h]

theorem trackerUpd_upd_cancel (t : Tracker) (k : String) (v : Nat) :
    trackerUpd (trackerUpd t k v) k (t k) = t := by
  funext x
  by_cases h : x = k
  · subst h; simp [trackerUpd]
  · simp [trackerUpd, h]

theorem lookup_append_single {β : Type} (ps : List (String × β)) (k : String) (v : β)
    (h : ps.lookup k = none) : (ps ++ [(k, v)]).lookup k = some v := by
  induction ps with
  | nil => simp [List.lookup]
  | cons p tail ih =>
    obtain ⟨k0, v0⟩ := p
    cases hbe : (k == k0) with
    | true => simp only [List.lookup, hbe] at h; cases h
    | false =>
      simp only [List.lookup, hbe] at h
      rw [List.cons_append]
      simp only [List.lookup, hbe]
      exact ih h

/-! ## Claim C2 -/

/-- Claim C2: For every expression `e`, the deterministic generator's
possibility list for `Optional(e)` is the empty string prepended to the
possibility list of `e` (errors pass through unchanged); consequently, for
`Sequence([Terminal("hello"), Optional(Terminal("world"))])` deterministic
generation yields exactly the strings `"hello"` and `"hello world"`, with
no stray whitespace from the empty contribution. -/
theorem claimC2_optional_prepends_empty :
    (∀ (g : JGrammar) (cfg : GenConfig) (fuel : Nat) (e : JNode) (t : Tracker),
      detProcess g cfg (fuel + 1) (.opt e) t =
        ((detProcess g cfg fuel e t).1,
         (detProcess g cfg fuel e t).2.map (fun ss => "" :: ss))) ∧
    (detGenerateNamed gHelloWorld ⟨50⟩ 5 "start" emptyTracker).2 =
      .ok ["hello", "hello world"] := by
  constructor
  · intro g cfg fuel e t
    show (match detProcess g cfg fuel e t with
          | (t2, Except.error err) => (t2, Except.error err)
          | (t2, Except.ok ss) => (t2, Except.ok ("" :: ss))) = _
    rcases detProcess g cfg fuel e t with ⟨t2, res⟩
    cases res <;> rfl
  · rfl

/-! ## Claim C7 -/

/-- Claim C7: For the two-rule grammar `<S> = <A>; <A> = <S>;`:
`detect_cycles()` returns exactly one cycle, `["<S>", "<A>", "<S>"]` — so
at least one cycle contains both rules, and every recorded cycle begins and
ends with the same rule name (the path slice from the repeated rule back to
itself inclusive); `is_recursive()` is true with no argument and for both
spellings `"S"` and `"<S>"` of the rule name. -/
theorem claimC7_cycle_detection :
    detectCycles gCycSA = [["<S>", "<A>", "<S>"]] ∧
    ((detectCycles gCycSA).any
      (fun c => c.contains "<S>" && c.contains "<A>")) = true ∧
    ((detectCycles gCycSA).all
      (fun c => decide (c.head? = c.getLast?))) = true ∧
    isRecursive gCycSA none = true ∧
    isRecursive gCycSA (some "S") = true ∧
    isRecursive gCycSA (some "<S>") = true :=
  ⟨rfl, rfl, rfl, rfl, rfl, rfl⟩

/-! ## Claim C4 -/

/-- Claim C4: The spec requires the per-rule recursion counters to be fully
reset at the start of every top-level generation call, for both generators
and in particular for a call naming an explicit rule after a prior call
exited via `RecursionError`.  The code violates this in exactly one place:
the named-rule branch of `DeterministicGenerator.generate` never clears
`_recursion_tracker`.  Concretely, on the grammar `<S> = <S>;` with
`max_recursion_depth = 2`, a first `generate("S")` raises `RecursionError`
and leaves the counter of `<S>` at `1` (the increment performed by the
guard raise is never undone), so the immediately following independent
`generate("S")` on the same instance begins with a nonzero counter and ends
with the counter at `2` instead of `1`.  The probabilistic generator's loop
body and the deterministic public-rules loop do reset (their results do not
depend on the instance tracker), as the remaining conjuncts record. -/
theorem claimC4_deterministic_named_call_keeps_residual_counter :
    ((detGenerateNamed gSelfRec ⟨2⟩ 10 "S" emptyTracker).2 =
        .error (.recursion "<S>") ∧
      (detGenerateNamed gSelfRec ⟨2⟩ 10 "S" emptyTracker).1 "<S>" = 1) ∧
    ((detGenerateNamed gSelfRec ⟨2⟩ 10 "S"
        ((detGenerateNamed gSelfRec ⟨2⟩ 10 "S" emptyTracker).1)).1 "<S>" = 2) ∧
    (∀ (g : JGrammar) (cfg : GenConfig) (fuel : Nat) (name : String)
        (t : Tracker) (rs : List ℚ),
      probGenerateNamed g cfg fuel name t rs =
        probGenerateNamed g cfg fuel name emptyTracker rs) ∧
    (∀ (g : JGrammar) (cfg : GenConfig) (fuel : Nat) (t : Tracker) (rs : List ℚ),
      probGeneratePublic g cfg fuel t rs =
        probGeneratePublic g cfg fuel emptyTracker rs) ∧
    (∀ (g : JGrammar) (cfg : GenConfig) (fuel : Nat) (t : Tracker),
      (detGeneratePublic g cfg fuel t).2 =
        (detGeneratePublic g cfg fuel emptyTracker).2) := by
  refine ⟨⟨rfl, rfl⟩, rfl, fun _ _ _ _ _ _ => rfl, fun _ _ _ _ _ => rfl, ?_⟩
  intro g cfg fuel t
  show (detGeneratePublicGo g cfg fuel g.publicRules t []).2 =
       (detGeneratePublicGo g cfg fuel g.publicRules emptyTracker []).2
  cases g.publicRules <;> rfl

/-! ## Claim C5 -/

/-- Claim C5 counterexample: The claim says a duplicate rule name makes
`add_rule` fail with a `DuplicateRuleError`; the code raises a plain
`ValueError` (no `DuplicateRuleError` exists in `jsgf/exceptions.py`).
Adding `<greet>` to a grammar that already holds `<greet>` produces a
`ValueError`, not a `DuplicateRuleError`, and leaves the grammar
unchanged. -/
theorem claimC5_counterexample :
    (addRule (gGreet 1 1) (greetRule 1 1)).1 =
      some (.valueError "Rule \x27<greet>\x27 already exists") ∧
    ((addRule (gGreet 1 1) (greetRule 1 1)).1.map PyExc.isDuplicateRuleError) =
      some false ∧
    (addRule (gGreet 1 1) (greetRule 1 1)).2 = gGreet 1 1 :=
  ⟨rfl, rfl, rfl⟩

/-- Claim C5 amended: For every grammar and every rule whose name already
exists in the grammar's rule mapping, `add_rule` fails with a `ValueError`
(not the spec's `DuplicateRuleError`) and leaves the grammar unchanged; for
every rule whose name is absent, `add_rule` inserts it into the rule
mapping (the new name looks up to the new rule) and appends it to
`public_rules` exactly when its `is_public` flag is set. -/
theorem claimC5_amended (g : JGrammar) (r : JRule) :
    ((g.rules.lookup r.name).isSome = true →
      addRule g r =
        (some (.valueError ("Rule \x27" ++ r.name ++ "\x27 already exists")), g)) ∧
    ((g.rules.lookup r.name).isSome = false →
      (addRule g r).1 = none ∧
      (addRule g r).2.rules = g.rules ++ [(r.name, r)] ∧
      (addRule g r).2.rules.lookup r.name = some r ∧
      (addRule g r).2.publicRules =
        (if r.isPublic then g.publicRules ++ [r] else g.publicRules)) := by
  constructor
  · intro h
    simp only [addRule, h, if_true]
  · intro h
    have h2 : (g.rules.lookup r.name).isSome ≠ true := by simp [h]
    refine ⟨by simp only [addRule, h, if_neg h2]; rfl,
            by simp only [addRule, if_neg h2],
            ?_, by simp only [addRule, if_neg h2]⟩
    simp only [addRule, if_neg h2]
    have hnone : g.rules.lookup r.name = none := by
      cases hl : g.rules.lookup r.name with
      | none => rfl
      | some v => rw [hl] at h; cases h
    exact lookup_append_single g.rules r.name r hnone

/-- Claim C5 witness: The amended theorem applied at concrete inputs: the
duplicate insertion fails with the `ValueError` and the fresh insertion
succeeds. -/
theorem claimC5_witness :
    addRule (gGreet 1 1) (greetRule 1 1) =
      (some (.valueError ("Rule \x27<greet>\x27 already exists")), gGreet 1 1) ∧
    (addRule ⟨[], []⟩ (greetRule 1 1)).1 = none :=
  ⟨(claimC5_amended (gGreet 1 1) (greetRule 1 1)).1 (by rfl),
   ((claimC5_amended ⟨[], []⟩ (greetRule 1 1)).2 (by rfl)).1⟩

/-! ## Claim C10 -/

theorem startsWithSub_iff (pat : List Char) :
    ∀ l, startsWithSub l pat = true ↔ ∃ rest, l = pat ++ rest := by
  induction pat with
  | nil => intro l; simp [startsWithSub]
  | cons b bs ih =>
    intro l
    cases l with
    | nil => simp [startsWithSub]
    | cons a as =>
      simp only [startsWithSub, Bool.and_eq_true, decide_eq_true_eq, ih as]
      constructor
      · rintro ⟨rfl, rest, rfl⟩; exact ⟨rest, rfl⟩
      · rintro ⟨rest, h⟩
        rw [List.cons_append] at h
        injection h with h1 h2
        exact ⟨h1, rest, h2⟩

theorem findSub_of_first (pat post : List Char) :
    ∀ pre line, line = pre ++ pat ++ post →
      (∀ j, j < pre.length → startsWithSub (line.drop j) pat = false) →
      findSub line pat = some pre.length := by
  intro pre
  induction pre with
  | nil =>
    intro line hline _
    subst hline
    have h0 : startsWithSub (pat ++ post) pat = true :=
      (startsWithSub_iff pat _).mpr ⟨post, rfl⟩
    simp only [List.nil_append, List.length_nil]
    unfold findSub
    rw [if_pos h0]
  | cons c pre2 ih =>
    intro line hline hmin
    subst hline
    have h0 : startsWithSub ((c :: pre2 ++ pat ++ post).drop 0) pat = false :=
      hmin 0 (by simp)
    simp only [List.drop_zero] at h0
    have hrec := ih (pre2 ++ pat ++ post) rfl (fun j hj => by
      have := hmin (j + 1) (by simpa using Nat.succ_lt_succ hj)
      simpa using this)
    simp only [List.cons_append] at h0 ⊢
    unfold findSub
    rw [if_neg (by simp only [List.append_assoc] at h0; simp [h0])]
    simp only [List.length_cons]
    rw [show pre2 ++ pat ++ post = (pre2 ++ pat ++ post) from rfl] at hrec
    simp only [List.append_assoc] at hrec ⊢
    simp [hrec]

theorem findSub_of_none (pat : List Char) :
    ∀ line, (∀ j, startsWithSub (line.drop j) pat = false) →
      findSub line pat = none := by
  intro line
  induction line with
  | nil =>
    intro h
    have h0 := h 0
    simp only [List.drop_zero] at h0
    simp [findSub, h0]
  | cons c rest ih =>
    intro h
    have h0 := h 0
    simp only [List.drop_zero] at h0
    have := ih (fun j => by simpa using h (j + 1))
    simp [findSub, h0, this]

/-- Claim C10: `JSGFParser.nocomment`, which runs on every physical line of
the legacy parse path behind `Grammar.from_string`: a line whose first `//`
occurrence starts at position `pre.length` is truncated to `pre`; a line
with no `//` but containing `*` anywhere is replaced by the empty string —
so rule text on such a line (e.g. a rule followed by a block comment) is
silently discarded; every other line passes through unchanged. -/
theorem claimC10_nocomment_star_blanks_lines :
    (∀ (line : String) (pre post : List Char),
      line.data = pre ++ '/' :: '/' :: post →
      (∀ j, j < pre.length → startsWithSub (line.data.drop j) ['/', '/'] = false) →
      nocomment line = ⟨pre⟩) ∧
    (∀ line : String,
      (∀ j, j < line.data.length → startsWithSub (line.data.drop j) ['/', '/'] = false) →
      '*' ∈ line.data → nocomment line = "") ∧
    (∀ line : String,
      (∀ j, j < line.data.length → startsWithSub (line.data.drop j) ['/', '/'] = false) →
      '*' ∉ line.data → nocomment line = line) ∧
    nocomment "<r> = hello ; /* c */" = "" ∧
    nocomment "abc // def" = "abc " ∧
    nocomment "<r> = hello ;" = "<r> = hello ;" := by
  have hnone : ∀ line : String,
      (∀ j, j < line.data.length → startsWithSub (line.data.drop j) ['/', '/'] = false) →
      findSub line.data ['/', '/'] = none := by
    intro line h
    apply findSub_of_none
    intro j
    by_cases hj : j < line.data.length
    · exact h j hj
    · rw [List.drop_eq_nil_of_le (by omega)]
      rfl
  refine ⟨?_, ?_, ?_, rfl, rfl, rfl⟩
  · intro line pre post hline hmin
    have := findSub_of_first ['/', '/'] post pre line.data (by simpa using hline) hmin
    simp only [nocomment, this]
    congr 1
    rw [hline]
    exact List.take_left pre ('/' :: '/' :: post)
  · intro line h hstar
    have hf := hnone line h
    simp only [nocomment, hf]
    rw [if_pos (by simpa [List.contains] using hstar)]
  · intro line h hstar
    have hf := hnone line h
    simp only [nocomment, hf]
    rw [if_neg (by simpa [List.contains] using hstar)]

/-- Claim C10 witness: The truncation branch applied at a concrete line. -/
theorem claimC10_witness : nocomment "ab // c" = "ab " :=
  claimC10_nocomment_star_blanks_lines.1 "ab // c" "ab ".data " c".data rfl (by decide)

/-! ## Claim C1 -/

theorem detStepList_ok_tracker
    (f : JNode → Tracker → Tracker × Except GenErr (List String))
    (hf : ∀ e t t2 ss, f e t = (t2, .ok ss) → t2 = t) :
    ∀ es t t2 ls, detStepList f es t = (t2, .ok ls) → t2 = t := by
  intro es
  induction es with
  | nil =>
    intro t t2 ls h
    simp only [detStepList] at h
    exact (Prod.mk.injEq _ _ _ _ ▸ h).1.symm
  | cons e es ih =>
    intro t t2 ls h
    simp only [detStepList] at h
    rcases he : f e t with ⟨ta, resa⟩
    rw [he] at h
    cases resa with
    | error err => simp at h
    | ok ss =>
      dsimp only at h
      rcases hrest : detStepList f es ta with ⟨tb, resb⟩
      rw [hrest] at h
      cases resb with
      | error err => simp at h
      | ok rest =>
        simp only [Prod.mk.injEq] at h
        have h1 := hf e t ta ss he
        have h2 := ih ta tb rest hrest
        rw [← h.1, h2, h1]

theorem detStepChoices_ok_tracker
    (f : JNode → Tracker → Tracker × Except GenErr (List String))
    (hf : ∀ e t t2 ss, f e t = (t2, .ok ss) → t2 = t) :
    ∀ cs t t2 ss, detStepChoices f cs t = (t2, .ok ss) → t2 = t := by
  intro cs
  induction cs with
  | nil =>
    intro t t2 ss h
    simp only [detStepChoices] at h
    exact (Prod.mk.injEq _ _ _ _ ▸ h).1.symm
  | cons c cs ih =>
    intro t t2 ss h
    rcases c with ⟨cn, cw⟩
    simp only [detStepChoices] at h
    rcases he : f cn t with ⟨ta, resa⟩
    rw [he] at h
    cases resa with
    | error err => simp at h
    | ok ss1 =>
      dsimp only at h
      rcases hrest : detStepChoices f cs ta with ⟨tb, resb⟩
      rw [hrest] at h
      cases resb with
      | error err => simp at h
      | ok rest =>
        simp only [Prod.mk.injEq] at h
        have h1 := hf cn t ta ss1 he
        have h2 := ih ta tb rest hrest
        rw [← h.1, h2, h1]

/-- A successful deterministic processing run leaves the recursion tracker
exactly as it found it: every `_enter_rule` is matched by the `finally`
`_exit_rule`. -/
theorem detProcess_ok_tracker (g : JGrammar) (cfg : GenConfig) :
    ∀ fuel e t t2 ss, detProcess g cfg fuel e t = (t2, .ok ss) → t2 = t := by
  intro fuel
  induction fuel with
  | zero => intro e t t2 ss h; simp [detProcess] at h
  | succ fuel ih =>
    intro e t t2 ss h
    cases e with
    | terminal v =>
      simp only [detProcess, Prod.mk.injEq] at h
      exact h.1.symm
    | nonTerminal n =>
      simp only [detProcess] at h
      cases hr : getRule g n with
      | none => rw [hr] at h; simp at h
      | some r =>
        rw [hr] at h
        simp only at h
        by_cases hguard : cfg.maxRecursionDepth < trackerUpd t n (t n + 1) n
        · rw [if_pos hguard] at h; simp at h
        · rw [if_neg hguard] at h
          rcases hrec : detProcess g cfg fuel r.expansion (trackerUpd t n (t n + 1)) with ⟨ta, resa⟩
          rw [hrec] at h
          cases resa with
          | error err => simp at h
          | ok ss1 =>
            simp only [Prod.mk.injEq] at h
            have h1 := ih r.expansion (trackerUpd t n (t n + 1)) ta ss1 hrec
            rw [← h.1, h1, trackerUpd_same]
            exact trackerUpd_upd_cancel t n (t n + 1)
    | seq es =>
      simp only [detProcess] at h
      by_cases hemp : es.isEmpty
      · rw [if_pos hemp] at h
        simp only [Prod.mk.injEq] at h
        exact h.1.symm
      · rw [if_neg hemp] at h
        rcases hl : detStepList (detProcess g cfg fuel) es t with ⟨ta, resa⟩
        rw [hl] at h
        cases resa with
        | error err => simp at h
        | ok ls =>
          simp only [Prod.mk.injEq] at h
          rw [← h.1]
          exact detStepList_ok_tracker _ (fun e t t2 ss hh => ih e t t2 ss hh) es t ta ls hl
    | alt cs =>
      simp only [detProcess] at h
      exact detStepChoices_ok_tracker _ (fun e t t2 ss hh => ih e t t2 ss hh) cs t t2 ss h
    | opt e =>
      simp only [detProcess] at h
      rcases he : detProcess g cfg fuel e t with ⟨ta, resa⟩
      rw [he] at h
      cases resa with
      | error err => simp at h
      | ok ss1 =>
        simp only [Prod.mk.injEq] at h
        rw [← h.1]
        exact ih e t ta ss1 he
    | group e =>
      simp only [detProcess] at h
      exact ih e t t2 ss h

theorem detStepChoices_weights_ignored
    (f : JNode → Tracker → Tracker × Except GenErr (List String))
    (wmap : JNode × ℚ → ℚ) :
    ∀ cs t, detStepChoices f (cs.map (fun c => (c.1, wmap c))) t = detStepChoices f cs t := by
  intro cs
  induction cs with
  | nil => intro t; rfl
  | cons c cs ih =>
    intro t
    rcases c with ⟨cn, cw⟩
    simp only [List.map_cons, detStepChoices]
    rcases f cn t with ⟨ta, resa⟩
    cases resa with
    | error err => rfl
    | ok ss1 =>
      dsimp only
      rw [ih ta]

theorem detStepChoices_ok_flatten
    (f : JNode → Tracker → Tracker × Except GenErr (List String))
    (hf : ∀ e t t2 ss, f e t = (t2, .ok ss) → t2 = t) :
    ∀ cs t t2 ss, detStepChoices f cs t = (t2, .ok ss) →
      ss = (cs.map (fun c => okOrNil (f c.1 t))).flatten := by
  intro cs
  induction cs with
  | nil =>
    intro t t2 ss h
    simp only [detStepChoices] at h
    simp only [Prod.mk.injEq] at h
    have := h.2
    injection this with h2
    simp [← h2]
  | cons c cs ih =>
    intro t t2 ss h
    rcases c with ⟨cn, cw⟩
    simp only [detStepChoices] at h
    rcases he : f cn t with ⟨ta, resa⟩
    rw [he] at h
    cases resa with
    | error err => simp at h
    | ok ss1 =>
      dsimp only at h
      rcases hrest : detStepChoices f cs ta with ⟨tb, resb⟩
      rw [hrest] at h
      cases resb with
      | error err => simp at h
      | ok rest =>
        simp only [Prod.mk.injEq] at h
        have hta : ta = t := hf cn t ta ss1 he
        subst hta
        have := ih ta tb rest hrest
        have h2 := h.2
        injection h2 with h2
        simp only [List.map_cons, List.flatten_cons, ← h2, this, okOrNil, he]

theorem legacyStripWeights_map_wpair (ds : List (LRHS × ℚ)) :
    legacyStripWeights (ds.map (fun d => .wpair d.1 d.2)) = ds.map Prod.fst := by
  cases ds with
  | nil => rfl
  | cons d ds =>
    simp only [List.map_cons, legacyStripWeights, List.map_map]
    rfl

theorem legacyStepDisjuncts_ok_flatten
    (f : LRHS → Except LegacyErr (List String)) :
    ∀ items ss, legacyStepDisjuncts f items = .ok ss →
      ss = (items.map (fun d => exceptOkOr (f d))).flatten := by
  intro items
  induction items with
  | nil =>
    intro ss h
    simp only [legacyStepDisjuncts] at h
    injection h with h
    simp [← h]
  | cons d ds ih =>
    intro ss h
    simp only [legacyStepDisjuncts] at h
    cases he : f d with
    | error e => rw [he] at h; cases h
    | ok ss1 =>
      rw [he] at h
      cases hrest : legacyStepDisjuncts f ds with
      | error e => rw [hrest] at h; cases h
      | ok rest =>
        rw [hrest] at h
        injection h with h
        simp only [List.map_cons, List.flatten_cons, ← h, ih rest hrest, exceptOkOr, he]

/-- Claim C1: For every `Alternative` node the deterministic generator's
possibility list is the concatenation, in choice order, of each choice's
own possibility list, with weights ignored: (i) replacing the weights of
the choices by any others leaves the result unchanged; (ii) on success the
result is the flattening, in choice order, of the per-choice possibility
lists, each computed from the same tracker state (which a successful run
preserves); (iii) in particular, for
`Alternative([(Terminal("hello"), w1), (Terminal("hi"), w2)])` with any
positive weights, generation from the rule yields exactly
`["hello", "hi"]`, whose set of members is `{"hello", "hi"}` of size 2;
(iv) the legacy `processDisjunction` likewise concatenates the expansions
of the weight-stripped disjuncts in order. -/
theorem claimC1_alternative_enumeration :
    (∀ (g : JGrammar) (cfg : GenConfig) (fuel : Nat) (cs : List (JNode × ℚ))
       (wmap : JNode × ℚ → ℚ) (t : Tracker),
      detProcess g cfg fuel (.alt (cs.map (fun c => (c.1, wmap c)))) t =
        detProcess g cfg fuel (.alt cs) t) ∧
    (∀ (g : JGrammar) (cfg : GenConfig) (fuel : Nat) (cs : List (JNode × ℚ))
       (t t2 : Tracker) (ss : List String),
      detProcess g cfg (fuel + 1) (.alt cs) t = (t2, .ok ss) →
      t2 = t ∧
      ss = (cs.map (fun c => okOrNil (detProcess g cfg fuel c.1 t))).flatten) ∧
    (∀ w1 w2 : ℚ, 0 < w1 → 0 < w2 →
      (detGenerateNamed (gGreet w1 w2) ⟨50⟩ 5 "greet" emptyTracker).2 =
        .ok ["hello", "hi"] ∧
      (["hello", "hi"] : List String).toFinset = {"hello", "hi"} ∧
      ({"hello", "hi"} : Finset String).card = 2) ∧
    (∀ (lg : LegacyGrammar) (fuel : Nat) (ds : List (LRHS × ℚ)) (ss : List String),
      legacyProcessRHS lg (fuel + 1) (.disj (ds.map (fun d => .wpair d.1 d.2))) = .ok ss →
      ss = (ds.map (fun d => exceptOkOr (legacyProcessRHS lg fuel d.1))).flatten) := by
  refine ⟨?_, ?_, ?_, ?_⟩
  · intro g cfg fuel cs wmap t
    cases fuel with
    | zero => rfl
    | succ fuel =>
      show detStepChoices (detProcess g cfg fuel) (cs.map (fun c => (c.1, wmap c))) t =
           detStepChoices (detProcess g cfg fuel) cs t
      exact detStepChoices_weights_ignored _ wmap cs t
  · intro g cfg fuel cs t t2 ss h
    have hp : ∀ e t t2 ss, detProcess g cfg fuel e t = (t2, .ok ss) → t2 = t :=
      fun e t t2 ss hh => detProcess_ok_tracker g cfg fuel e t t2 ss hh
    refine ⟨detStepChoices_ok_tracker _ hp cs t t2 ss h, ?_⟩
    exact detStepChoices_ok_flatten _ hp cs t t2 ss h
  · intro w1 w2 h1 h2
    exact ⟨rfl, by decide, by decide⟩
  · intro lg fuel ds ss h
    have h2 : legacyStepDisjuncts (legacyProcessRHS lg fuel)
        (legacyStripWeights (ds.map (fun d => .wpair d.1 d.2))) = .ok ss := h
    rw [legacyStripWeights_map_wpair] at h2
    have := legacyStepDisjuncts_ok_flatten (legacyProcessRHS lg fuel) (ds.map Prod.fst) ss h2
    simpa [List.map_map] using this

/-- Claim C1 witness: The concrete alternative enumerated at weights
`1` and `2`. -/
theorem claimC1_witness :
    (0 : ℚ) < 1 ∧ (0 : ℚ) < 2 ∧
    (detGenerateNamed (gGreet 1 2) ⟨50⟩ 5 "greet" emptyTracker).2 =
      .ok ["hello", "hi"] :=
  ⟨zero_lt_one, zero_lt_two,
   (claimC1_alternative_enumeration.2.2.1 1 2 zero_lt_one zero_lt_two).1⟩

/-! ## Claim C9 -/

theorem detGeneratePublicGo_strips (g : JGrammar) (cfg : GenConfig) (fuel : Nat) :
    ∀ (rules : List JRule) (t : Tracker) (acc : List String),
      (∀ s ∈ acc, noEdgeSpace s = true) →
      ∀ s ∈ (detGeneratePublicGo g cfg fuel rules t acc).2.1, noEdgeSpace s = true := by
  intro rules
  induction rules with
  | nil => intro t acc hacc s hs; exact hacc s hs
  | cons r rest ih =>
    intro t acc hacc s hs
    simp only [detGeneratePublicGo] at hs
    rcases hp : detProcess g cfg fuel r.expansion emptyTracker with ⟨t2, res⟩
    rw [hp] at hs
    cases res with
    | error e => exact hacc s hs
    | ok ss =>
      refine ih t2 (acc ++ ss.map pyStrip) ?_ s hs
      intro s2 hs2
      rcases List.mem_append.mp hs2 with h2 | h2
      · exact hacc s2 h2
      · rcases List.mem_map.mp h2 with ⟨s0, _, rfl⟩
        exact noEdgeSpace_pyStrip s0

/-- Claim C9: Every string yielded at the public interface of either
generator — the deterministic generator with an explicit rule name or over
all public rules, and the probabilistic generator with an explicit rule
name or over the public rules — has been stripped, hence carries no leading
or trailing whitespace. -/
theorem claimC9_yielded_strings_are_stripped :
    (∀ (g : JGrammar) (cfg : GenConfig) (fuel : Nat) (name : String)
       (t t2 : Tracker) (ss : List String),
      detGenerateNamed g cfg fuel name t = (t2, .ok ss) →
      ∀ s ∈ ss, noEdgeSpace s = true) ∧
    (∀ (g : JGrammar) (cfg : GenConfig) (fuel : Nat) (t : Tracker) (s : String),
      s ∈ (detGeneratePublic g cfg fuel t).2.1 → noEdgeSpace s = true) ∧
    (∀ (g : JGrammar) (cfg : GenConfig) (fuel : Nat) (name : String)
       (t : Tracker) (rs : List ℚ) (st : Tracker × List ℚ) (s : String),
      probGenerateNamed g cfg fuel name t rs = (st, .ok s) →
      noEdgeSpace s = true) ∧
    (∀ (g : JGrammar) (cfg : GenConfig) (fuel : Nat)
       (t : Tracker) (rs : List ℚ) (st : Tracker × List ℚ) (s : String),
      probGeneratePublic g cfg fuel t rs = (st, .ok s) →
      noEdgeSpace s = true) := by
  refine ⟨?_, ?_, ?_, ?_⟩
  · intro g cfg fuel name t t2 ss h s hs
    simp only [detGenerateNamed] at h
    cases hr : getRule g name with
    | none => rw [hr] at h; simp at h
    | some r =>
      rw [hr] at h
      dsimp only at h
      rcases hp : detProcess g cfg fuel r.expansion t with ⟨ta, res⟩
      rw [hp] at h
      cases res with
      | error e => simp at h
      | ok ss0 =>
        simp only [Prod.mk.injEq, Except.ok.injEq] at h
        rw [← h.2] at hs
        rcases List.mem_map.mp hs with ⟨s0, _, rfl⟩
        exact noEdgeSpace_pyStrip s0
  · intro g cfg fuel t s hs
    exact detGeneratePublicGo_strips g cfg fuel g.publicRules t [] (by simp) s hs
  · intro g cfg fuel name t rs st s h
    simp only [probGenerateNamed] at h
    cases hr : getRule g name with
    | none => rw [hr] at h; simp at h
    | some r =>
      rw [hr] at h
      dsimp only at h
      rcases hp : probProcess g cfg fuel r.expansion emptyTracker rs with ⟨sta, res⟩
      rw [hp] at h
      cases res with
      | error e => simp at h
      | ok s0 =>
        simp only [Prod.mk.injEq, Except.ok.injEq] at h
        rw [← h.2]
        exact noEdgeSpace_pyStrip s0
  · intro g cfg fuel t rs st s h
    simp only [probGeneratePublic] at h
    by_cases hemp : g.publicRules.isEmpty
    · rw [if_pos hemp] at h; simp at h
    · rw [if_neg hemp] at h
      by_cases hlen : 1 < g.publicRules.length
      · rw [if_pos hlen] at h
        rcases hp : probProcess g cfg fuel
            (.alt (g.publicRules.map (fun r => (r.expansion, 1)))) emptyTracker rs with ⟨sta, res⟩
        rw [hp] at h
        cases res with
        | error e => simp at h
        | ok s0 =>
          simp only [Prod.mk.injEq, Except.ok.injEq] at h
          rw [← h.2]
          exact noEdgeSpace_pyStrip s0
      · rw [if_neg hlen] at h
        cases hpr : g.publicRules with
        | nil => rw [hpr] at h; simp at h
        | cons r rest =>
          rw [hpr] at h
          dsimp only at h
          rcases hp : probProcess g cfg fuel r.expansion emptyTracker rs with ⟨sta, res⟩
          rw [hp] at h
          cases res with
          | error e => simp at h
          | ok s0 =>
            simp only [Prod.mk.injEq, Except.ok.injEq] at h
            rw [← h.2]
            exact noEdgeSpace_pyStrip s0

/-- Claim C9 witness: The deterministic conjunct applied at the concrete
grammar `<start> = hello [world];`. -/
theorem claimC9_witness : noEdgeSpace "hello world" = true :=
  claimC9_yielded_strings_are_stripped.1 gHelloWorld ⟨50⟩ 5 "start" emptyTracker
    emptyTracker ["hello", "hello world"] rfl "hello world" (by simp)

/-! ## Claim C6 -/

mutual

theorem findUndefinedRefs_eq_filter (g : JGrammar) :
    (e : JNode) → findUndefinedRefs g e = (ntNames e).filter (fun n => !hasRule g n)
  | .terminal v => by simp [findUndefinedRefs, ntNames]
  | .nonTerminal n => by
    by_cases h : hasRule g n
    · simp [findUndefinedRefs, ntNames, h, List.filter]
    · simp only [Bool.not_eq_true] at h
      simp [findUndefinedRefs, ntNames, h, List.filter]
  | .seq es => by
    simp only [findUndefinedRefs, ntNames]
    exact findUndefinedRefsList_eq_filter g es
  | .alt cs => by
    simp only [findUndefinedRefs, ntNames]
    exact findUndefinedRefsChoices_eq_filter g cs
  | .opt e => by
    simp only [findUndefinedRefs, ntNames]
    exact findUndefinedRefs_eq_filter g e
  | .group e => by
    simp only [findUndefinedRefs, ntNames]
    exact findUndefinedRefs_eq_filter g e

theorem findUndefinedRefsList_eq_filter (g : JGrammar) :
    (es : List JNode) →
      findUndefinedRefsList g es = (ntNamesList es).filter (fun n => !hasRule g n)
  | [] => rfl
  | e :: es => by
    simp only [findUndefinedRefsList, ntNamesList, List.filter_append,
      findUndefinedRefs_eq_filter g e, findUndefinedRefsList_eq_filter g es]

theorem findUndefinedRefsChoices_eq_filter (g : JGrammar) :
    (cs : List (JNode × ℚ)) →
      findUndefinedRefsChoices g cs = (ntNamesChoices cs).filter (fun n => !hasRule g n)
  | [] => rfl
  | (c, w) :: cs => by
    simp only [findUndefinedRefsChoices, ntNamesChoices, List.filter_append,
      findUndefinedRefs_eq_filter g c, findUndefinedRefsChoices_eq_filter g cs]

end

theorem ruleMsg_ne_noPublic (x y z : String) :
    ("Rule \x27" ++ x ++ y ++ z) ≠ "Grammar must have at least one public rule" := by
  intro h
  have h2 := congrArg (fun s : String => s.data.head?) h
  simp only [String.data_append, List.cons_append, List.head?_cons] at h2
  exact absurd (Option.some.inj h2) (by decide)

/-- The no-public-rule failure message never collides with a
per-rule undefined-reference message. -/
theorem noPublic_not_mem_ruleErrors (g : JGrammar) :
    "Grammar must have at least one public rule" ∉
      g.rules.flatMap (fun p =>
        let undef := findUndefinedRefs g p.2.expansion
        if undef.isEmpty then []
        else ["Rule \x27" ++ p.2.name ++ "\x27 references undefined non-terminals: " ++
              String.intercalate ", " undef]) := by
  intro h
  rcases List.mem_flatMap.mp h with ⟨p, hp, hmem⟩
  by_cases hu : (findUndefinedRefs g p.2.expansion).isEmpty
  · simp [hu] at hmem
  · rw [if_neg hu] at hmem
    rw [List.mem_singleton] at hmem
    exact ruleMsg_ne_noPublic p.2.name
      "\x27 references undefined non-terminals: "
      (String.intercalate ", " (findUndefinedRefs g p.2.expansion))
      hmem.symm

/-- Claim C6: `validate` runs both checks to completion and reports them
together: it returns `none` exactly when no rule has an undefined reference
and a public rule exists; otherwise the single error aggregates, for every
rule with undefined references, a message naming that rule and all of its
undefined reference names (so it is not fail-fast), plus the no-public-rule
failure exactly when `public_rules` is empty.  The reference visitor
collects precisely the `NonTerminal` names of the expansion without a
matching rule, in traversal order. -/
theorem claimC6_validate_runs_to_completion (g : JGrammar) :
    (validate g = none ↔
      (∀ p ∈ g.rules, findUndefinedRefs g p.2.expansion = []) ∧
      g.publicRules ≠ []) ∧
    (∀ p ∈ g.rules, findUndefinedRefs g p.2.expansion ≠ [] →
      ("Rule \x27" ++ p.2.name ++ "\x27 references undefined non-terminals: " ++
        String.intercalate ", " (findUndefinedRefs g p.2.expansion)) ∈ validateErrors g) ∧
    ("Grammar must have at least one public rule" ∈ validateErrors g ↔
      g.publicRules = []) ∧
    (∀ e : JNode, findUndefinedRefs g e = (ntNames e).filter (fun n => !hasRule g n)) := by
  refine ⟨?_, ?_, ?_, fun e => findUndefinedRefs_eq_filter g e⟩
  · constructor
    · intro h
      have hempty : (validateErrors g).isEmpty = true := by
        by_contra hne
        simp only [validate, hne, if_neg, Bool.false_eq_true] at h
        cases h
      rw [List.isEmpty_iff] at hempty
      unfold validateErrors at hempty
      rcases List.append_eq_nil.mp hempty with ⟨h1, h2⟩
      constructor
      · intro p hp
        have := (List.flatMap_eq_nil_iff.mp h1) p hp
        by_cases hu : (findUndefinedRefs g p.2.expansion).isEmpty
        · exact List.isEmpty_iff.mp hu
        · simp only [hu, if_neg, Bool.false_eq_true] at this
          cases this
      · intro hpub
        have : g.publicRules.isEmpty = true := by simp [hpub]
        rw [if_pos this] at h2
        cases h2
    · rintro ⟨hclean, hpub⟩
      have hempty : validateErrors g = [] := by
        unfold validateErrors
        rw [List.append_eq_nil]
        constructor
        · rw [List.flatMap_eq_nil_iff]
          intro p hp
          have := hclean p hp
          simp [this]
        · rw [if_neg (by simpa [List.isEmpty_iff] using hpub)]
      simp [validate, hempty]
  · intro p hp hne
    unfold validateErrors
    rw [List.mem_append]
    left
    rw [List.mem_flatMap]
    refine ⟨p, hp, ?_⟩
    rw [if_neg (by simpa [List.isEmpty_iff] using hne)]
    simp
  · constructor
    · intro h
      unfold validateErrors at h
      rcases List.mem_append.mp h with h1 | h2
      · exact absurd h1 (noPublic_not_mem_ruleErrors g)
      · by_cases hpub : g.publicRules.isEmpty
        · exact List.isEmpty_iff.mp hpub
        · rw [if_neg (by simpa using hpub)] at h2
          cases h2
    · intro h
      unfold validateErrors
      rw [List.mem_append]
      right
      rw [if_pos (by simp [h])]
      simp

/-- Claim C6 witness: The claim applied at a grammar with both failures (an
undefined `<missing>` reference and no public rule) and at a clean
grammar. -/
theorem claimC6_witness :
    ("Rule \x27<start>\x27 references undefined non-terminals: <missing>")
      ∈ validateErrors gBad ∧
    ("Grammar must have at least one public rule") ∈ validateErrors gBad ∧
    validate (gGreet 1 1) = none :=
  ⟨(claimC6_validate_runs_to_completion gBad).2.1 ("<start>", ⟨"<start>", .nonTerminal "<missing>", false⟩)
      (by simp [gBad]) (by decide),
   ((claimC6_validate_runs_to_completion gBad).2.2.1).mpr rfl,
   ((claimC6_validate_runs_to_completion (gGreet 1 1)).1).mpr
     ⟨by decide, by simp [gGreet]⟩⟩

/-! ## Claim C3 -/

theorem bisectRight_le_length (x : ℚ) : ∀ l : List ℚ, bisectRight x l ≤ l.length := by
  intro l
  induction l with
  | nil => simp [bisectRight]
  | cons a l ih =>
    by_cases h : x < a
    · simp [bisectRight, h]
    · simp only [bisectRight, if_neg h, List.length_cons]
      omega

theorem bisectRight_getElem_gt (x : ℚ) :
    ∀ (l : List ℚ) (c : ℚ), l[bisectRight x l]? = some c → x < c := by
  intro l
  induction l with
  | nil => intro c h; simp [bisectRight] at h
  | cons a l ih =>
    intro c h
    by_cases hx : x < a
    · simp only [bisectRight, if_pos hx, List.getElem?_cons_zero, Option.some.injEq] at h
      rw [← h]; exact hx
    · simp only [bisectRight, if_neg hx, List.getElem?_cons_succ] at h
      exact ih c h

theorem bisectRight_getElem_le (x : ℚ) :
    ∀ (l : List ℚ) (j : Nat) (c : ℚ), j < bisectRight x l → l[j]? = some c → c ≤ x := by
  intro l
  induction l with
  | nil => intro j c hj h; simp [bisectRight] at hj
  | cons a l ih =>
    intro j c hj h
    by_cases hx : x < a
    · rw [bisectRight, if_pos hx] at hj; omega
    · rw [bisectRight, if_neg hx] at hj
      cases j with
      | zero =>
        simp only [List.getElem?_cons_zero, Option.some.injEq] at h
        rw [← h]
        exact not_lt.mp hx
      | succ j =>
        simp only [List.getElem?_cons_succ] at h
        exact ih j c (by omega) h

theorem bisectRight_lt_length (x : ℚ) (l : List ℚ) (c : ℚ)
    (hl : l[l.length - 1]? = some c) (hc : x < c) : bisectRight x l < l.length := by
  rcases Nat.lt_or_ge (bisectRight x l) l.length with h | h
  · exact h
  · exfalso
    have hlen : 0 < l.length := by
      cases l with
      | nil => simp at hl
      | cons a l => simp
    have heq : bisectRight x l = l.length :=
      le_antisymm (bisectRight_le_length x l) h
    have := bisectRight_getElem_le x l (l.length - 1) c (by omega) hl
    exact absurd hc (not_lt.mpr this)

theorem accumFrom_length : ∀ (ws : List ℚ) (acc : ℚ), (accumFrom acc ws).length = ws.length := by
  intro ws
  induction ws with
  | nil => intro acc; rfl
  | cons w ws ih => intro acc; simp [accumFrom, ih]

theorem accumFrom_getLast? :
    ∀ (ws : List ℚ), ws ≠ [] → ∀ acc, (accumFrom acc ws).getLast? = some (acc + ws.sum) := by
  intro ws
  induction ws with
  | nil => intro h; cases h rfl
  | cons w ws ih =>
    intro _ acc
    cases hws : ws with
    | nil => simp [accumFrom, hws]
    | cons w2 ws2 =>
      subst hws
      show ((acc + w) :: accumFrom (acc + w) (w2 :: ws2)).getLast? = _
      rw [show accumFrom (acc + w) (w2 :: ws2) =
            (acc + w + w2) :: accumFrom (acc + w + w2) ws2 from rfl]
      rw [List.getLast?_cons_cons]
      rw [show (acc + w + w2) :: accumFrom (acc + w + w2) ws2 =
            accumFrom (acc + w) (w2 :: ws2) from rfl]
      rw [ih (by simp) (acc + w)]
      congr 1
      simp [List.sum_cons]
      ring

/-- Claim C3 counterexample: The claim says the selection picks the first
choice whose cumulative weight equals-or-exceeds the draw, so a draw
exactly at a cumulative boundary goes to the choice whose cumulative
weight first equals it.  With weights `[1, 1]` the cumulative distribution
is `[1, 2]`; at the boundary draw `1` the spec rule selects index `0`, but
`weightedChoice`'s `bisect.bisect` (bisect-right) selects index `1`, i.e.
the second choice `Terminal("hi")`, not the first. -/
theorem claimC3_counterexample :
    weightedChoiceIdx [1, 1] 1 = 1 ∧
    specFirstGEIdx [1, 1] 1 = 0 ∧
    weightedChoiceAt [(.terminal "hello", 1), (.terminal "hi", 1)] 1 =
      some (.terminal "hi") ∧
    (1 : Nat) ≠ 0 := by
  refine ⟨?_, ?_, ?_, by decide⟩ <;>
    norm_num [weightedChoiceIdx, weightedChoiceAt, specFirstGEIdx, accumWeights,
      accumFrom, bisectRight, firstGEIdx]

/-- Claim C3 amended: For every non-empty choice list with positive weights
and every draw value `x` in `[0, total_weight)`, `weightedChoice`'s
selection index is in range; the cumulative weight at the selected index
strictly exceeds the draw, while every earlier cumulative weight is at most
the draw (so a draw exactly at a cumulative boundary selects the next
choice, not the one whose cumulative weight equals it); and the selected
choice is an element of the choice list. -/
theorem claimC3_amended (ws : List ℚ) (x : ℚ) (hne : ws ≠ [])
    (hpos : ∀ w ∈ ws, 0 < w) (hx0 : 0 ≤ x) (hxt : x < ws.sum) :
    weightedChoiceIdx ws x < ws.length ∧
    (∀ c, (accumWeights ws)[weightedChoiceIdx ws x]? = some c → x < c) ∧
    (∀ j c, j < weightedChoiceIdx ws x → (accumWeights ws)[j]? = some c → c ≤ x) ∧
    (∀ pairs : List (JNode × ℚ), pairs.map Prod.snd = ws →
      ∃ node, weightedChoiceAt pairs x = some node ∧ node ∈ pairs.map Prod.fst) := by
  have hlen : (accumWeights ws).length = ws.length := accumFrom_length ws 0
  have hlast : (accumWeights ws).getLast? = some ws.sum := by
    rw [accumWeights, accumFrom_getLast? ws hne 0, zero_add]
  have hidx : weightedChoiceIdx ws x < ws.length := by
    rw [← hlen]
    apply bisectRight_lt_length x (accumWeights ws) ws.sum _ hxt
    rw [← List.getLast?_eq_getElem?]
    exact hlast
  refine ⟨hidx, ?_, ?_, ?_⟩
  · intro c h; exact bisectRight_getElem_gt x (accumWeights ws) c h
  · intro j c hj h; exact bisectRight_getElem_le x (accumWeights ws) j c hj h
  · intro pairs hmap
    have hplen : pairs.length = ws.length := by rw [← hmap, List.length_map]
    have hidx2 : weightedChoiceIdx ws x < pairs.length := by omega
    have hget : pairs.get? (weightedChoiceIdx ws x) =
        some (pairs[weightedChoiceIdx ws x]) := by
      rw [List.get?_eq_getElem?]
      exact List.getElem?_eq_getElem hidx2
    refine ⟨(pairs[weightedChoiceIdx ws x]).1, ?_, ?_⟩
    · unfold weightedChoiceAt
      rw [hmap, hget]
      rfl
    · exact List.mem_map.mpr ⟨pairs[weightedChoiceIdx ws x], List.getElem_mem hidx2, rfl⟩

/-- Claim C3 witness: The amended theorem applied to the two-choice list with
weights `[1, 1]` and boundary draw `1`: a choice is selected and it is one
of the two choices. -/
theorem claimC3_witness :
    ∃ node, weightedChoiceAt [(JNode.terminal "hello", 1), (JNode.terminal "hi", 1)] 1 =
        some node ∧
      node ∈ ([(JNode.terminal "hello", (1 : ℚ)), (JNode.terminal "hi", 1)].map Prod.fst) :=
  (claimC3_amended [1, 1] 1 (by simp) (by simp) zero_le_one
      (by simp [List.sum_cons, List.sum_nil, lt_add_iff_pos_right])).2.2.2
    [(JNode.terminal "hello", 1), (JNode.terminal "hi", 1)] rfl

/-! ## Claim C8 -/

theorem matchStartSymbol_nil : matchStartSymbol [] = none := rfl

theorem matchRuleCore_semi_mem :
    ∀ (fuel : Nat) (p : Bool) (l1 : List Lexeme) (m : MatchedRule),
      matchRuleCore fuel p l1 = some m → Lexeme.semi ∈ l1 := by
  intro fuel p l1 m h
  unfold matchRuleCore at h
  cases l1 with
  | nil => exact Option.noConfusion h
  | cons c l1a =>
    cases c <;> try exact Option.noConfusion h
    case nt name =>
      cases l1a with
      | nil => exact Option.noConfusion h
      | cons c2 l2 =>
        cases c2 <;> try exact Option.noConfusion h
        case eq =>
          dsimp only at h
          cases hp : parseTopLevel fuel l2 with
          | none => rw [hp] at h; exact Option.noConfusion h
          | some r =>
            rw [hp] at h
            rcases r with ⟨ts, n⟩
            dsimp only at h
            cases hd : l2.drop n with
            | nil => rw [hd] at h; exact Option.noConfusion h
            | cons d ds =>
              rw [hd] at h
              have hsemi : Lexeme.semi ∈ l2.drop n := by
                cases d <;> try exact Option.noConfusion h
                case semi => rw [hd]; exact List.mem_cons_self _ _
              have h2 : Lexeme.semi ∈ l2 := List.drop_subset n l2 hsemi
              exact List.mem_cons_of_mem _ (List.mem_cons_of_mem _ h2)

/-- A successful rule match contains a `;` lexeme (the one consumed just
before the end-of-buffer check). -/
theorem matchStartSymbol_semi_mem :
    ∀ (l : List Lexeme) (m : MatchedRule),
      matchStartSymbol l = some m → Lexeme.semi ∈ l := by
  intro l m h
  unfold matchStartSymbol at h
  cases l with
  | nil => exact Option.noConfusion h
  | cons c rest =>
    cases c <;>
      first
      | exact List.mem_cons_of_mem _ (matchRuleCore_semi_mem _ _ _ _ h)
      | exact matchRuleCore_semi_mem _ _ _ _ h

/-- A buffer without a `;` lexeme has no scan match. -/
theorem scanFirst_none_of_no_semi :
    ∀ buf : List Lexeme, Lexeme.semi ∉ buf → scanFirst buf = none := by
  intro buf
  induction buf with
  | nil => intro _; rfl
  | cons c rest ih =>
    intro h
    unfold scanFirst
    cases hm : matchStartSymbol (c :: rest) with
    | some m => exact absurd (matchStartSymbol_semi_mem _ m hm) h
    | none =>
      rw [ih (fun hmem => h (List.mem_cons_of_mem _ hmem))]
      rfl

theorem drainBuffer_no_semi (buf : List Lexeme) (h : Lexeme.semi ∉ buf) :
    ∀ fuel g, drainBuffer fuel g buf = (g, buf) := by
  intro fuel g
  cases fuel with
  | zero => rfl
  | succ fuel =>
    unfold drainBuffer
    rw [scanFirst_none_of_no_semi buf h]

theorem drainBuffer_nil : ∀ fuel g, drainBuffer fuel g [] = (g, []) := by
  intro fuel g
  cases fuel with
  | zero => rfl
  | succ fuel => rfl

theorem drainBuffer_full (r : List Lexeme) (m : MatchedRule)
    (hm : matchStartSymbol r = some m) :
    ∀ g, drainBuffer (r.length + 1) g r = (legacyAdd g m, []) := by
  intro g
  have hr : r ≠ [] := by
    intro hnil
    rw [hnil, matchStartSymbol_nil] at hm
    cases hm
  have hscan : scanFirst r = some (m, r.length) := by
    cases r with
    | nil => cases hr rfl
    | cons c rest =>
      unfold scanFirst
      rw [hm]
  unfold drainBuffer
  rw [hscan]
  simp only [List.drop_length]
  exact drainBuffer_nil r.length (legacyAdd g m)

theorem foldl_feedLine_empty_lines (g : LegacyGrammar) :
    ∀ lines : List (List Lexeme), (∀ l ∈ lines, l = []) →
      lines.foldl feedLine (g, []) = (g, []) := by
  intro lines
  induction lines with
  | nil => intro _; rfl
  | cons ln rest ih =>
    intro h
    rw [List.foldl_cons]
    have hln : ln = [] := h ln (List.mem_cons_self _ _)
    subst hln
    have : feedLine (g, []) [] = (g, []) := by
      unfold feedLine
      exact drainBuffer_nil _ g
    rw [this]
    exact ih (fun l hl => h l (List.mem_cons_of_mem _ hl))

/-- Feeding the physical lines of one well-formed rule to the buffered
scanner, starting from a buffer that is a semi-free prefix of the rule,
emits exactly that rule and leaves the buffer empty — no matter how the
rule's lexemes are split across lines. -/
theorem feedBlock (body : List Lexeme) (hnosemi : Lexeme.semi ∉ body)
    (m : MatchedRule) (hm : matchStartSymbol (body ++ [Lexeme.semi]) = some m) :
    ∀ (lines : List (List Lexeme)) (cur : List Lexeme) (g : LegacyGrammar),
      cur ++ lines.flatten = body ++ [Lexeme.semi] → Lexeme.semi ∉ cur →
      lines.foldl feedLine (g, cur) = (legacyAdd g m, []) := by
  intro lines
  induction lines with
  | nil =>
    intro cur g hcur hs
    exfalso
    simp only [List.flatten_nil, List.append_nil] at hcur
    exact hs (hcur ▸ List.mem_append_right body (List.mem_singleton.mpr rfl))
  | cons ln rest ih =>
    intro cur g hcur hs
    rw [List.foldl_cons]
    have hbufr : (cur ++ ln) ++ rest.flatten = body ++ [Lexeme.semi] := by
      rw [List.flatten_cons] at hcur
      simpa [List.append_assoc] using hcur
    by_cases hrest : rest.flatten = []
    · have hbuf : cur ++ ln = body ++ [Lexeme.semi] := by
        rw [hrest, List.append_nil] at hbufr
        exact hbufr
      have hstep : feedLine (g, cur) ln = (legacyAdd g m, []) := by
        unfold feedLine
        simp only
        rw [hbuf]
        exact drainBuffer_full _ m hm g
      rw [hstep]
      exact foldl_feedLine_empty_lines (legacyAdd g m) rest
        (List.flatten_eq_nil_iff.mp hrest)
    · have hcount : (body ++ [Lexeme.semi]).count Lexeme.semi = 1 := by
        rw [List.count_append]
        rw [List.count_eq_zero.mpr hnosemi]
        simp
      have hsemi_rest : Lexeme.semi ∈ rest.flatten := by
        have hlast : (body ++ [Lexeme.semi]).getLast? = some Lexeme.semi :=
          List.getLast?_concat body
        rw [← hbufr] at hlast
        rw [List.getLast?_append_of_ne_nil (cur ++ ln) hrest] at hlast
        rcases List.mem_getLast?_eq_getLast (x := Lexeme.semi)
          (by rw [hlast]; rfl) with ⟨hne, hx⟩
        rw [hx]
        exact List.getLast_mem hne
      have hnobuf : Lexeme.semi ∉ cur ++ ln := by
        intro hmem
        have h1 : 1 ≤ (cur ++ ln).count Lexeme.semi := List.one_le_count_iff.mpr hmem
        have h2 : 1 ≤ rest.flatten.count Lexeme.semi := List.one_le_count_iff.mpr hsemi_rest
        have := congrArg (List.count Lexeme.semi) hbufr
        rw [List.count_append, hcount] at this
        omega
      have hstep : feedLine (g, cur) ln = (g, cur ++ ln) := by
        unfold feedLine
        simp only
        exact drainBuffer_no_semi _ hnobuf _ g
      rw [hstep]
      exact ih (cur ++ ln) g hbufr hnobuf

theorem getGrammarObject_blocks :
    ∀ (blocks : List (List (List Lexeme))),
      (∀ b ∈ blocks, WFRuleLexemes b.flatten) →
      ∀ g : LegacyGrammar,
        blocks.flatten.foldl feedLine (g, []) =
          (blocks.map List.flatten).foldl feedLine (g, []) := by
  intro blocks
  induction blocks with
  | nil => intro _ g; rfl
  | cons b rest ih =>
    intro hwf g
    have hwfb := hwf b (List.mem_cons_self _ _)
    rcases hwfb with ⟨hsome, body, hbody, hnosemi⟩
    rcases Option.isSome_iff_exists.mp hsome with ⟨m, hm⟩
    rw [hbody] at hm
    have hone : b.foldl feedLine (g, []) = (legacyAdd g m, []) :=
      feedBlock body hnosemi m hm b [] g (by rw [List.nil_append, hbody]) (by simp)
    have honeline : [b.flatten].foldl feedLine (g, []) = (legacyAdd g m, []) :=
      feedBlock body hnosemi m hm [b.flatten] [] g
        (by simp [hbody]) (by simp)
    rw [List.flatten_cons, List.foldl_append, hone]
    rw [List.map_cons, List.foldl_cons]
    have : feedLine (g, []) b.flatten = (legacyAdd g m, []) := by
      have h2 := honeline
      rw [List.foldl_cons, List.foldl_nil] at h2
      exact h2
    rw [this]
    exact ih (fun bb hb => hwf bb (List.mem_cons_of_mem _ hb)) (legacyAdd g m)

/-- Claim C8: A rule definition may span multiple physical lines: for every
well-formed grammar source — a sequence of rule definitions, each
well-formed at the lexeme level (the matcher accepts it and its only `;`
is final) — splitting each rule's lexemes across physical lines in any way
(equivalently, inserting extra whitespace including newlines between the
tokens of each definition) produces exactly the same legacy grammar, with
the same rules, the same public rules and structurally equal right-hand
sides, as the one-line-per-rule layout.  The parser is the line-buffered
`getGrammarObject` of the source: it accumulates lines into a buffer and
emits each rule as soon as a complete definition matches in the buffer
(necessarily from its start here), advancing past the matched span. -/
theorem claimC8_rules_may_span_lines (blocks : List (List (List Lexeme)))
    (hwf : ∀ b ∈ blocks, WFRuleLexemes b.flatten) :
    getGrammarObject blocks.flatten = getGrammarObject (blocks.map List.flatten) := by
  unfold getGrammarObject
  rw [getGrammarObject_blocks blocks hwf ⟨[], []⟩]

/-- Claim C8 witness: The rule `<r> = hello world;` split across two physical
lines parses to the same grammar as the one-line layout. -/
theorem claimC8_witness :
    getGrammarObject [[.nt "<r>", .eq, .token "hello"], [.token "world", .semi]] =
      getGrammarObject [[.nt "<r>", .eq, .token "hello", .token "world", .semi]] :=
  claimC8_rules_may_span_lines
    [[[.nt "<r>", .eq, .token "hello"], [.token "world", .semi]]]
    (by
      intro b hb
      rw [List.mem_singleton] at hb
      subst hb
      exact ⟨by decide, [.nt "<r>", .eq, .token "hello", .token "world"], rfl, by decide⟩)

end JSGFTools
